import Mathlib

/-!
Verification development for the `name_sync` RPC call of the namesync
repository (patch `0001-Added-name_sync-RPC-call-to-allow-easy-namedb-sync.patch`,
function `name_sync` in `src/rpcnames.cpp`).

The ledger (block index, active chain, blocks, transactions, decoded name
scripts) is shallowly embedded.  Block hashes are modelled in their
hex-string form (the code only ever compares them and prints them with
`GetHex`).  Names and values are modelled as `String` (`ValtypeToString`
is the identity in the model).  JSON values produced by the RPC call are
modelled by `JVal`; an event is a JSON array, i.e. a `List JVal`, exactly
as `json_spirit::Array` is used by the source.

The blocking `wait` branch of the source suspends on a condition variable
until the chain tip changes or the RPC service shuts down.  That
interaction with the environment is modelled by the explicit `WaitOutcome`
argument: the chain state observed when the wait loop exits, and the value
of `IsRPCRunning()` at that moment.  When `wait` is false (or the start
block is not the tip) the outcome argument is never consulted.
-/

/-- JSON value as used by the RPC surface: strings and integers. -/
inductive JVal where
  | s (v : String)
  | i (v : Int)
deriving DecidableEq, Repr

/-- One event of the result batch: a `json_spirit::Array` of values. -/
abbrev JArr := List JVal

/-- Name-script opcode as returned by `CNameScript::getNameOp`. -/
inductive NameOpcode where
  | opNameNew
  | opNameFirstupdate
  | opNameUpdate
deriving DecidableEq, Repr

/-- Decoded name script of one transaction output (`CNameScript` built
from the output's `scriptPubKey`). -/
structure CNameScript where
  isNameOp : Bool
  isAnyUpdate : Bool
  getNameOp : NameOpcode
  getOpName : String
  getOpValue : String
deriving DecidableEq, Repr

/-- A transaction: its Namecoin flag and the name scripts of its outputs,
in `vout` order. -/
structure CTransaction where
  isNamecoin : Bool
  vout : List CNameScript
deriving DecidableEq, Repr

/-- A block: its transactions in block order. -/
structure CBlock where
  vtx : List CTransaction
deriving DecidableEq, Repr

/-- A block-index entry (`CBlockIndex`): height, hash (hex form) and the
block contents as read from disk; `none` models a failing
`ReadBlockFromDisk`. -/
structure CBlockIndex where
  nHeight : Int
  blockHash : String
  blockData : Option CBlock
deriving DecidableEq, Repr

/-- Ledger state: `mapBlockIndex` keyed by block hash, and the active
chain `chainActive` where list position is block height. -/
structure Ledger where
  mapBlockIndex : List (String × CBlockIndex)
  chainActive : List CBlockIndex
deriving DecidableEq, Repr

/-- Chain state observed when the blocking wait loop exits, plus the value
of `IsRPCRunning()` at that moment. -/
structure WaitOutcome where
  ledgerExit : Ledger
  rpcRunning : Bool
deriving DecidableEq, Repr

/-- Error outcomes of `name_sync`: `RPC_INVALID_ADDRESS_OR_KEY` ("Block
not found"), `RPC_INTERNAL_ERROR` ("Can't read block from disk"),
`RPC_CLIENT_NOT_CONNECTED` ("Shutting down"). -/
inductive SyncError where
  | unknownBlock
  | readError
  | shuttingDown
deriving DecidableEq, Repr

/-- Height of the chain tip, `chainActive.Height()`: number of blocks
minus one (`-1` for an empty chain). -/
def chainHeight (L : Ledger) : Int :=
  (L.chainActive.length : Int) - 1

/-- Indexing the active chain, `chainActive[h]`: `none` outside
`[0, Height()]`. -/
def chainAt (L : Ledger) (h : Int) : Option CBlockIndex :=
  if 0 ≤ h ∧ h ≤ chainHeight L then L.chainActive.get? h.toNat else none

/-- Lookup in `mapBlockIndex` by block hash. -/
def lookupBlockIndex (L : Ledger) (hash : String) : Option CBlockIndex :=
  (L.mapBlockIndex.find? (fun p => p.1 == hash)).map (fun p => p.2)

/-- Event produced by one transaction output, lines 127-141 of the patch:
outputs whose script `isNameOp` and `isAnyUpdate` yield a three-element
array whose kind is "firstupdate" exactly when `getNameOp` is
`OP_NAME_FIRSTUPDATE`, and "update" otherwise. -/
def outputEvent (op : CNameScript) : Option JArr :=
  if op.isNameOp && op.isAnyUpdate then
    some [JVal.s (if op.getNameOp = NameOpcode.opNameFirstupdate then "firstupdate" else "update"),
          JVal.s op.getOpName, JVal.s op.getOpValue]
  else
    none

/-- Events produced by one transaction: non-Namecoin transactions are
skipped (`continue`), otherwise the outputs are scanned in order. -/
def txEvents (tx : CTransaction) : List JArr :=
  if tx.isNamecoin then tx.vout.filterMap outputEvent else []

/-- Events produced by one block: transactions in block order, outputs in
output order within each transaction. -/
def blockEvents (b : CBlock) : List JArr :=
  (b.vtx.map txEvents).flatten

/-- Fetch and read the block at one height of the active chain
(`chainActive[curHeight]` followed by `ReadBlockFromDisk`). -/
def processBlock (L : Ledger) (curHeight : Int) : Except SyncError (CBlockIndex × List JArr) :=
  match chainAt L curHeight with
  | none => Except.error SyncError.readError
  | some pblockindex =>
    match pblockindex.blockData with
    | none => Except.error SyncError.readError
    | some block => Except.ok (pblockindex, blockEvents block)

/-- The scan loop of `name_sync`, lines 111-160 of the patch: iterate
`curHeight` up to `maxHeight`, breaking at the top of an iteration once
`numEmitted > count`; per block, emit the block's name-operation events,
then an `atblock` checkpoint when the block emitted at least one event or
the loop is about to terminate (`willTerminate`).  The `fuel` argument is
the number of loop iterations still permitted; callers pass at least the
size of the remaining height range, which makes fuel exhaustion coincide
with the `curHeight > maxHeight` exit. -/
def scanLoop (L : Ledger) (count maxHeight : Int) : Nat → Int → Int → Except SyncError (List JArr)
  | 0, _, _ => Except.ok []
  | Nat.succ fuel, curHeight, numEmitted =>
    if maxHeight < curHeight then Except.ok []
    else if count < numEmitted then Except.ok []
    else
      match processBlock L curHeight with
      | Except.error e => Except.error e
      | Except.ok (pblockindex, evs) =>
        match scanLoop L count maxHeight fuel (curHeight + 1) (numEmitted + (evs.length : Int)) with
        | Except.error e => Except.error e
        | Except.ok rest =>
          Except.ok (evs ++
            (if !evs.isEmpty ||
                (decide (maxHeight < curHeight + 1) ||
                 decide (count < numEmitted + (evs.length : Int))) then
              [[JVal.s "atblock", JVal.s pblockindex.blockHash, JVal.i curHeight]]
            else []) ++ rest)

/-- The `name_sync` RPC call, lines 39-163 of the patch.  Argument order of
the source: negative `count` returns an empty array before the block
lookup; an unknown `block_hash` is an `unknownBlock` fault; the start
block is read from disk; when `wait` holds and the start block is the
current tip, the call suspends until the tip changes (outcome `w`),
failing with `shuttingDown` when the RPC service stopped, and re-samples
the tip height once at wait-exit; finally the scan runs from the start
block's successor to the sampled tip. -/
def name_sync (L : Ledger) (strHash : String) (count : Int) (wait : Bool) (w : WaitOutcome) :
    Except SyncError (List JArr) :=
  if count < 0 then Except.ok []
  else
    match lookupBlockIndex L strHash with
    | none => Except.error SyncError.unknownBlock
    | some pblockindex =>
      match pblockindex.blockData with
      | none => Except.error SyncError.readError
      | some _ =>
        if wait && decide (pblockindex.nHeight = chainHeight L) then
          if !w.rpcRunning then Except.error SyncError.shuttingDown
          else
            scanLoop w.ledgerExit count (chainHeight w.ledgerExit)
              ((chainHeight w.ledgerExit - pblockindex.nHeight).toNat) (pblockindex.nHeight + 1) 0
        else
          scanLoop L count (chainHeight L)
            ((chainHeight L - pblockindex.nHeight).toNat) (pblockindex.nHeight + 1) 0

/-- Whether the suspending branch of `name_sync` is entered: nonnegative
count, `wait` requested, and the start block is already the tip. -/
def waitTaken (L : Ledger) (strHash : String) (count : Int) (wait : Bool) : Bool :=
  decide (0 ≤ count) && (wait &&
    (match lookupBlockIndex L strHash with
     | some pblockindex => decide (pblockindex.nHeight = chainHeight L)
     | none => false))

/-- The ledger state the scan iterates over: the wait-exit state when the
suspending branch was entered, the call-time state otherwise. -/
def scannedLedger (L : Ledger) (strHash : String) (count : Int) (wait : Bool) (w : WaitOutcome) : Ledger :=
  if waitTaken L strHash count wait then w.ledgerExit else L

/-- Recognizer for checkpoint events: arrays whose first element is the
string "atblock". -/
def isAtblockEv (ev : JArr) : Bool :=
  match ev with
  | JVal.s k :: _ => k == "atblock"
  | _ => false

/-- Height carried by a checkpoint event, `none` for any other event. -/
def atblockHeight (ev : JArr) : Option Int :=
  match ev with
  | [JVal.s k, JVal.s _, JVal.i h] => if k == "atblock" then some h else none
  | _ => none

/-- Heights of the checkpoint events of a batch, in emission order. -/
def cpHeights (evs : List JArr) : List Int :=
  evs.filterMap atblockHeight

/-- Number of name-operation (non-checkpoint) events of a batch. -/
def countNameOps (evs : List JArr) : Nat :=
  (evs.filter (fun ev => !isAtblockEv ev)).length

/-- Flattening of a per-block decomposition of a batch: each chunk is a
scanned block paired with the checkpoint events appended after it. -/
def renderChunks (chunks : List (CBlock × List JArr)) : List JArr :=
  (chunks.map (fun q => blockEvents q.1 ++ q.2)).flatten

/-- Concrete sample script: a `firstupdate` of name "d/example" with value
"\x7b\x7d". -/
def exOp1 : CNameScript :=
  { isNameOp := true, isAnyUpdate := true, getNameOp := NameOpcode.opNameFirstupdate,
    getOpName := "d/example", getOpValue := "\x7b\x7d" }

/-- Concrete sample transaction carrying `exOp1` as its only output. -/
def exTx1 : CTransaction :=
  { isNamecoin := true, vout := [exOp1] }

/-- Concrete sample blocks: the start block and the tip block are empty,
the middle block carries `exTx1` as its only transaction. -/
def exBlock0 : CBlock := { vtx := [] }

/-- Middle sample block, one transaction with one firstupdate output. -/
def exBlock1 : CBlock := { vtx := [exTx1] }

/-- Tip sample block, no transactions. -/
def exBlock2 : CBlock := { vtx := [] }

/-- Block-index entry of the sample start block, height 0, hash "h0". -/
def exIdx0 : CBlockIndex :=
  { nHeight := 0, blockHash := "h0", blockData := some exBlock0 }

/-- Block-index entry of the middle sample block, height 1, hash "h1". -/
def exIdx1 : CBlockIndex :=
  { nHeight := 1, blockHash := "h1", blockData := some exBlock1 }

/-- Block-index entry of the sample tip block, height 2, hash "h2". -/
def exIdx2 : CBlockIndex :=
  { nHeight := 2, blockHash := "h2", blockData := some exBlock2 }

/-- Concrete sample ledger with canonical chain `exIdx0`, `exIdx1`,
`exIdx2`. -/
def exLedger : Ledger :=
  { mapBlockIndex := [("h0", exIdx0), ("h1", exIdx1), ("h2", exIdx2)],
    chainActive := [exIdx0, exIdx1, exIdx2] }

/-- Default wait outcome used for sample non-waiting calls. -/
def wDefault : WaitOutcome := { ledgerExit := exLedger, rpcRunning := true }

/-- Batch returned by the sample call `name_sync exLedger "h0" 10 false`. -/
def exOutput : List JArr :=
  [[JVal.s "firstupdate", JVal.s "d/example", JVal.s "\x7b\x7d"],
   [JVal.s "atblock", JVal.s "h1", JVal.i 1],
   [JVal.s "atblock", JVal.s "h2", JVal.i 2]]

lemma mem_blockEvents {b : CBlock} {ev : JArr} (h : ev ∈ blockEvents b) :
    ∃ k nm v, ev = [JVal.s k, JVal.s nm, JVal.s v] ∧ (k = "firstupdate" ∨ k = "update") := by
  unfold blockEvents at h
  rw [List.mem_flatten] at h
  obtain ⟨l, hl, hev⟩ := h
  rw [List.mem_map] at hl
  obtain ⟨tx, _, rfl⟩ := hl
  unfold txEvents at hev
  by_cases hn : tx.isNamecoin
  · rw [if_pos hn] at hev
    rw [List.mem_filterMap] at hev
    obtain ⟨op, _, hop⟩ := hev
    unfold outputEvent at hop
    by_cases hq : (op.isNameOp && op.isAnyUpdate) = true
    · rw [if_pos hq] at hop
      injection hop with hop
      subst hop
      by_cases hf : op.getNameOp = NameOpcode.opNameFirstupdate
      · exact ⟨"firstupdate", op.getOpName, op.getOpValue, by rw [if_pos hf], Or.inl rfl⟩
      · exact ⟨"update", op.getOpName, op.getOpValue, by rw [if_neg hf], Or.inr rfl⟩
    · rw [if_neg hq] at hop
      exact absurd hop (by simp)
  · rw [if_neg hn] at hev
    exact absurd hev (by simp)

lemma not_atblock_blockEvents {b : CBlock} {ev : JArr} (h : ev ∈ blockEvents b) :
    isAtblockEv ev = false := by
  obtain ⟨k, nm, v, rfl, hk⟩ := mem_blockEvents h
  rcases hk with rfl | rfl <;> rfl

lemma atblockHeight_blockEvents {b : CBlock} {ev : JArr} (h : ev ∈ blockEvents b) :
    atblockHeight ev = none := by
  obtain ⟨k, nm, v, rfl, hk⟩ := mem_blockEvents h
  rcases hk with rfl | rfl <;> rfl

lemma cpHeights_append (a b : List JArr) : cpHeights (a ++ b) = cpHeights a ++ cpHeights b := by
  simp [cpHeights, List.filterMap_append]

lemma cpHeights_blockEvents (b : CBlock) : cpHeights (blockEvents b) = [] := by
  rw [cpHeights, List.filterMap_eq_nil_iff]
  intro ev hev
  exact atblockHeight_blockEvents hev

lemma cpHeights_atblock (hsh : String) (ht : Int) :
    cpHeights [[JVal.s "atblock", JVal.s hsh, JVal.i ht]] = [ht] := rfl

lemma countNameOps_append (a b : List JArr) :
    countNameOps (a ++ b) = countNameOps a + countNameOps b := by
  simp [countNameOps, List.filter_append]

lemma countNameOps_blockEvents (b : CBlock) :
    countNameOps (blockEvents b) = (blockEvents b).length := by
  have hfil : (blockEvents b).filter (fun ev => !isAtblockEv ev) = blockEvents b := by
    rw [List.filter_eq_self]
    intro ev hev
    rw [not_atblock_blockEvents hev]
    rfl
  rw [countNameOps, hfil]

lemma countNameOps_atblock (hsh : String) (ht : Int) :
    countNameOps [[JVal.s "atblock", JVal.s hsh, JVal.i ht]] = 0 := rfl

lemma processBlock_ok {L : Ledger} {cur : Int} {pbi : CBlockIndex} {evs : List JArr}
    (h : processBlock L cur = Except.ok (pbi, evs)) :
    chainAt L cur = some pbi ∧ ∃ b, pbi.blockData = some b ∧ evs = blockEvents b := by
  unfold processBlock at h
  split at h
  next => simp at h
  next pblockindex heq =>
    split at h
    next => simp at h
    next block heqb =>
      simp only [Except.ok.injEq, Prod.mk.injEq] at h
      obtain ⟨h1, h2⟩ := h
      subst h1
      subst h2
      exact ⟨heq, block, heqb, rfl⟩

lemma scanLoop_stop {L : Ledger} {count mh : Int} (fuel : Nat) (cur n : Int) (h : count < n) :
    scanLoop L count mh fuel cur n = Except.ok [] := by
  cases fuel with
  | zero => rfl
  | succ f =>
    rw [scanLoop]
    by_cases hc : mh < cur
    · rw [if_pos hc]
    · rw [if_neg hc, if_pos h]

lemma isEmpty_false_of_ne_nil {α : Type} {l : List α} (h : l ≠ []) : l.isEmpty = false := by
  cases l with
  | nil => exact absurd rfl h
  | cons a as => rfl

lemma ne_nil_of_isEmpty_false {α : Type} {l : List α} (h : l.isEmpty = false) : l ≠ [] := by
  cases l with
  | nil => simp at h
  | cons a as => simp

lemma scanLoop_succ_ok {L : Ledger} {count mh : Int} {fuel : Nat} {cur n : Int} {evs : List JArr}
    (hcur : ¬ mh < cur) (hn : ¬ count < n)
    (h : scanLoop L count mh (fuel + 1) cur n = Except.ok evs) :
    ∃ pbi b rest,
      chainAt L cur = some pbi ∧ pbi.blockData = some b ∧
      scanLoop L count mh fuel (cur + 1) (n + ((blockEvents b).length : Int)) = Except.ok rest ∧
      evs = blockEvents b ++
        (if !(blockEvents b).isEmpty ||
            (decide (mh < cur + 1) || decide (count < n + ((blockEvents b).length : Int))) then
          [[JVal.s "atblock", JVal.s pbi.blockHash, JVal.i cur]]
        else []) ++ rest := by
  rw [scanLoop, if_neg hcur, if_neg hn] at h
  split at h
  next e heq => simp at h
  next pbi evs0 heq =>
    obtain ⟨hchain, b, hbd, hevs0⟩ := processBlock_ok heq
    subst hevs0
    split at h
    next e heq2 => simp at h
    next rest heq2 =>
      simp only [Except.ok.injEq] at h
      exact ⟨pbi, b, rest, hchain, hbd, heq2, h.symm⟩

lemma scanLoop_chunks (L : Ledger) (count mh : Int) :
    ∀ (fuel : Nat) (cur n : Int) (evs : List JArr),
      n ≤ count → (mh + 1 - cur).toNat ≤ fuel →
      scanLoop L count mh fuel cur n = Except.ok evs →
      ∃ chunks : List (CBlock × List JArr),
        evs = renderChunks chunks ∧
        (∀ q ∈ chunks, ∃ hgt idx, chainAt L hgt = some idx ∧ idx.blockData = some q.1 ∧
          (q.2 = [] ∨ q.2 = [[JVal.s "atblock", JVal.s idx.blockHash, JVal.i hgt]])) ∧
        (∀ q ∈ chunks, blockEvents q.1 ≠ [] → q.2 ≠ []) ∧
        (∀ q ∈ chunks.dropLast, q.2 ≠ [] → blockEvents q.1 ≠ []) ∧
        (chunks = [] ↔ mh < cur) ∧
        (∀ q, chunks.getLast? = some q → q.2 ≠ []) := by
  intro fuel
  induction fuel with
  | zero =>
    intro cur n evs hn hfuel h
    have hcur : mh < cur := by omega
    have hevs : evs = [] := by
      rw [scanLoop] at h
      simp only [Except.ok.injEq] at h
      exact h.symm
    subst hevs
    exact ⟨[], rfl, by simp, by simp, by simp, ⟨fun _ => hcur, fun _ => rfl⟩, by simp⟩
  | succ fuel ih =>
    intro cur n evs hn hfuel h
    by_cases hcur : mh < cur
    · have hevs : evs = [] := by
        rw [scanLoop, if_pos hcur] at h
        simp only [Except.ok.injEq] at h
        exact h.symm
      subst hevs
      exact ⟨[], rfl, by simp, by simp, by simp, ⟨fun _ => hcur, fun _ => rfl⟩, by simp⟩
    · have hn2 : ¬ count < n := by omega
      obtain ⟨pbi, b, rest, hchain, hbd, hrec, hevs⟩ := scanLoop_succ_ok hcur hn2 h
      subst hevs
      by_cases hb2 : count < n + ((blockEvents b).length : Int)
      · have hrest : rest = [] := by
          have hstop := @scanLoop_stop L count mh fuel (cur + 1)
            (n + ((blockEvents b).length : Int)) hb2
          rw [hstop] at hrec
          simp only [Except.ok.injEq] at hrec
          exact hrec.symm
        subst hrest
        refine ⟨[(b, [[JVal.s "atblock", JVal.s pbi.blockHash, JVal.i cur]])], ?_, ?_, ?_, ?_, ?_, ?_⟩
        · simp [renderChunks, hb2]
        · intro q hq
          rw [List.mem_singleton] at hq
          subst hq
          exact ⟨cur, pbi, hchain, hbd, Or.inr rfl⟩
        · intro q hq
          rw [List.mem_singleton] at hq
          subst hq
          simp
        · simp
        · exact ⟨fun hc => by simp at hc, fun hc => absurd hc hcur⟩
        · intro q hq
          simp only [List.getLast?_singleton, Option.some.injEq] at hq
          subst hq
          simp
      · have hfuel2 : (mh + 1 - (cur + 1)).toNat ≤ fuel := by omega
        obtain ⟨chunks, hrender, hprops, hemit, hdrop, hiff, hlast⟩ :=
          ih (cur + 1) (n + ((blockEvents b).length : Int)) rest (by omega) hfuel2 hrec
        by_cases hl : mh < cur + 1
        · have hch : chunks = [] := hiff.mpr hl
          subst hch
          have hrest : rest = [] := by simpa [renderChunks] using hrender
          subst hrest
          refine ⟨[(b, [[JVal.s "atblock", JVal.s pbi.blockHash, JVal.i cur]])], ?_, ?_, ?_, ?_, ?_, ?_⟩
          · simp [renderChunks, hl]
          · intro q hq
            rw [List.mem_singleton] at hq
            subst hq
            exact ⟨cur, pbi, hchain, hbd, Or.inr rfl⟩
          · intro q hq
            rw [List.mem_singleton] at hq
            subst hq
            simp
          · simp
          · exact ⟨fun hc => by simp at hc, fun hc => absurd hc hcur⟩
          · intro q hq
            simp only [List.getLast?_singleton, Option.some.injEq] at hq
            subst hq
            simp
        · have hch : chunks ≠ [] := fun hc0 => hl (hiff.mp hc0)
          subst hrender
          refine ⟨(b, if !(blockEvents b).isEmpty then
              [[JVal.s "atblock", JVal.s pbi.blockHash, JVal.i cur]] else []) :: chunks,
              ?_, ?_, ?_, ?_, ?_, ?_⟩
          · simp [renderChunks, hl, hb2]
          · intro q hq
            rcases List.mem_cons.mp hq with hq1 | hq2
            · subst hq1
              refine ⟨cur, pbi, hchain, hbd, ?_⟩
              by_cases he : (blockEvents b).isEmpty
              · left; simp [he]
              · right; simp [he]
            · exact hprops q hq2
          · intro q hq
            rcases List.mem_cons.mp hq with hq1 | hq2
            · subst hq1
              intro hne
              have he : (blockEvents b).isEmpty = false := isEmpty_false_of_ne_nil hne
              simp [he]
            · exact hemit q hq2
          · intro q hq
            have hdl : ((b, if !(blockEvents b).isEmpty then
                [[JVal.s "atblock", JVal.s pbi.blockHash, JVal.i cur]] else []) :: chunks).dropLast =
                (b, if !(blockEvents b).isEmpty then
                [[JVal.s "atblock", JVal.s pbi.blockHash, JVal.i cur]] else []) :: chunks.dropLast := by
              cases chunks with
              | nil => exact absurd rfl hch
              | cons c cs => rfl
            rw [hdl] at hq
            rcases List.mem_cons.mp hq with hq1 | hq2
            · subst hq1
              intro hne
              by_cases he : (blockEvents b).isEmpty
              · simp [he] at hne
              · have hf : (blockEvents b).isEmpty = false := by
                  cases hbe : (blockEvents b).isEmpty
                  · rfl
                  · exact absurd hbe he
                exact ne_nil_of_isEmpty_false hf
            · exact hdrop q hq2
          · exact ⟨fun hc => by simp at hc, fun hc => absurd hc hcur⟩
          · intro q hq
            have hgl : ((b, if !(blockEvents b).isEmpty then
                [[JVal.s "atblock", JVal.s pbi.blockHash, JVal.i cur]] else []) :: chunks).getLast? =
                chunks.getLast? := by
              cases chunks with
              | nil => exact absurd rfl hch
              | cons c cs => exact List.getLast?_cons_cons
            rw [hgl] at hq
            exact hlast q hq

lemma countNameOps_ite_atblock (c : Prop) [Decidable c] (hsh : String) (ht : Int) :
    countNameOps (if c then [[JVal.s "atblock", JVal.s hsh, JVal.i ht]] else []) = 0 := by
  split
  · exact countNameOps_atblock hsh ht
  · rfl

lemma scanLoop_cpHeights (L : Ledger) (count mh : Int) :
    ∀ (fuel : Nat) (cur n : Int) (evs : List JArr),
      scanLoop L count mh fuel cur n = Except.ok evs →
      List.Pairwise (fun a b => a < b) (cpHeights evs) ∧
      ∀ x ∈ cpHeights evs, cur ≤ x ∧ x ≤ mh := by
  intro fuel
  induction fuel with
  | zero =>
    intro cur n evs h
    have hevs : evs = [] := by
      rw [scanLoop] at h
      simp only [Except.ok.injEq] at h
      exact h.symm
    subst hevs
    exact ⟨List.Pairwise.nil, by simp [cpHeights]⟩
  | succ fuel ih =>
    intro cur n evs h
    by_cases hcur : mh < cur
    · have hevs : evs = [] := by
        rw [scanLoop, if_pos hcur] at h
        simp only [Except.ok.injEq] at h
        exact h.symm
      subst hevs
      exact ⟨List.Pairwise.nil, by simp [cpHeights]⟩
    · by_cases hn : count < n
      · have hevs : evs = [] := by
          rw [scanLoop, if_neg hcur, if_pos hn] at h
          simp only [Except.ok.injEq] at h
          exact h.symm
        subst hevs
        exact ⟨List.Pairwise.nil, by simp [cpHeights]⟩
      · obtain ⟨pbi, b, rest, hchain, hbd, hrec, hevs⟩ := scanLoop_succ_ok hcur hn h
        subst hevs
        obtain ⟨ihp, ihb⟩ := ih (cur + 1) (n + ((blockEvents b).length : Int)) rest hrec
        rw [cpHeights_append, cpHeights_append, cpHeights_blockEvents]
        by_cases hcnd : (!(blockEvents b).isEmpty ||
            (decide (mh < cur + 1) || decide (count < n + ((blockEvents b).length : Int)))) = true
        · rw [if_pos hcnd, cpHeights_atblock]
          simp only [List.nil_append, List.singleton_append]
          constructor
          · exact List.Pairwise.cons (fun x hx => by have := (ihb x hx).1; omega) ihp
          · intro x hx
            rcases List.mem_cons.mp hx with rfl | hx2
            · exact ⟨le_refl x, by omega⟩
            · have := ihb x hx2
              exact ⟨by omega, this.2⟩
        · rw [if_neg hcnd]
          simp only [List.nil_append]
          have hnil : cpHeights ([] : List JArr) = [] := rfl
          rw [hnil, List.nil_append]
          refine ⟨ihp, fun x hx => ?_⟩
          have := ihb x hx
          exact ⟨by omega, this.2⟩

lemma scanLoop_budget (L : Ledger) (count mh : Int) :
    ∀ (fuel : Nat) (cur n : Int) (evs : List JArr),
      n ≤ count →
      scanLoop L count mh fuel cur n = Except.ok evs →
      ∃ pre lastB cp, evs = pre ++ (lastB ++ cp) ∧
        n + (countNameOps pre : Int) ≤ count ∧
        (∀ ev ∈ cp, isAtblockEv ev = true) ∧
        (lastB = [] ∨ ∃ hgt idx b, chainAt L hgt = some idx ∧ idx.blockData = some b ∧
          lastB = blockEvents b) := by
  intro fuel
  induction fuel with
  | zero =>
    intro cur n evs hn h
    have hevs : evs = [] := by
      rw [scanLoop] at h
      simp only [Except.ok.injEq] at h
      exact h.symm
    subst hevs
    exact ⟨[], [], [], by simp, by simp [countNameOps]; omega, by simp, Or.inl rfl⟩
  | succ fuel ih =>
    intro cur n evs hn h
    by_cases hcur : mh < cur
    · have hevs : evs = [] := by
        rw [scanLoop, if_pos hcur] at h
        simp only [Except.ok.injEq] at h
        exact h.symm
      subst hevs
      exact ⟨[], [], [], by simp, by simp [countNameOps]; omega, by simp, Or.inl rfl⟩
    · have hn2 : ¬ count < n := by omega
      obtain ⟨pbi, b, rest, hchain, hbd, hrec, hevs⟩ := scanLoop_succ_ok hcur hn2 h
      subst hevs
      by_cases hb2 : count < n + ((blockEvents b).length : Int)
      · have hrest : rest = [] := by
          have hstop := @scanLoop_stop L count mh fuel (cur + 1)
            (n + ((blockEvents b).length : Int)) hb2
          rw [hstop] at hrec
          simp only [Except.ok.injEq] at hrec
          exact hrec.symm
        subst hrest
        refine ⟨[], blockEvents b,
          if !(blockEvents b).isEmpty ||
              (decide (mh < cur + 1) || decide (count < n + ((blockEvents b).length : Int))) then
            [[JVal.s "atblock", JVal.s pbi.blockHash, JVal.i cur]]
          else [], by simp, ?_, ?_, ?_⟩
        · simp [countNameOps]
          omega
        · intro ev hev
          split at hev
          · rw [List.mem_singleton] at hev
            subst hev
            rfl
          · simp at hev
        · exact Or.inr ⟨cur, pbi, b, hchain, hbd, rfl⟩
      · obtain ⟨pre, lastB, cp, hdec, hcnt, hcp, hlast⟩ :=
          ih (cur + 1) (n + ((blockEvents b).length : Int)) rest (by omega) hrec
        refine ⟨blockEvents b ++
          (if !(blockEvents b).isEmpty ||
              (decide (mh < cur + 1) || decide (count < n + ((blockEvents b).length : Int))) then
            [[JVal.s "atblock", JVal.s pbi.blockHash, JVal.i cur]]
          else []) ++ pre, lastB, cp, ?_, ?_, hcp, hlast⟩
        · rw [hdec]
          simp [List.append_assoc]
        · rw [countNameOps_append, countNameOps_append, countNameOps_blockEvents,
            countNameOps_ite_atblock]
          push_cast
          omega

lemma scanLoop_shapes (L : Ledger) (count mh : Int) :
    ∀ (fuel : Nat) (cur n : Int) (evs : List JArr),
      scanLoop L count mh fuel cur n = Except.ok evs →
      ∀ ev ∈ evs, (∃ hsh ht, ev = [JVal.s "atblock", JVal.s hsh, JVal.i ht]) ∨
        (∃ k nm v, ev = [JVal.s k, JVal.s nm, JVal.s v] ∧ (k = "firstupdate" ∨ k = "update")) := by
  intro fuel
  induction fuel with
  | zero =>
    intro cur n evs h
    have hevs : evs = [] := by
      rw [scanLoop] at h
      simp only [Except.ok.injEq] at h
      exact h.symm
    subst hevs
    simp
  | succ fuel ih =>
    intro cur n evs h
    by_cases hcur : mh < cur
    · have hevs : evs = [] := by
        rw [scanLoop, if_pos hcur] at h
        simp only [Except.ok.injEq] at h
        exact h.symm
      subst hevs
      simp
    · by_cases hn : count < n
      · have hevs : evs = [] := by
          rw [scanLoop, if_neg hcur, if_pos hn] at h
          simp only [Except.ok.injEq] at h
          exact h.symm
        subst hevs
        simp
      · obtain ⟨pbi, b, rest, hchain, hbd, hrec, hevs⟩ := scanLoop_succ_ok hcur hn h
        subst hevs
        intro ev hev
        rw [List.mem_append] at hev
        rcases hev with hev | hev
        · rw [List.mem_append] at hev
          rcases hev with hev | hev
          · obtain ⟨k, nm, v, rfl, hk⟩ := mem_blockEvents hev
            exact Or.inr ⟨k, nm, v, rfl, hk⟩
          · left
            split at hev
            · rw [List.mem_singleton] at hev
              subst hev
              exact ⟨pbi.blockHash, cur, rfl⟩
            · simp at hev
        · exact ih (cur + 1) (n + ((blockEvents b).length : Int)) rest hrec ev hev

lemma name_sync_neg {L : Ledger} {strHash : String} {count : Int} {wait : Bool} {w : WaitOutcome}
    (hc : count < 0) : name_sync L strHash count wait w = Except.ok [] := by
  unfold name_sync
  rw [if_pos hc]

lemma name_sync_unknown {L : Ledger} {strHash : String} {count : Int} {wait : Bool}
    {w : WaitOutcome} (hc : ¬ count < 0) (hlk : lookupBlockIndex L strHash = none) :
    name_sync L strHash count wait w = Except.error SyncError.unknownBlock := by
  unfold name_sync
  rw [if_neg hc, hlk]

lemma name_sync_ok_scan {L : Ledger} {strHash : String} {count : Int} {wait : Bool}
    {w : WaitOutcome} {evs : List JArr} {pbi : CBlockIndex}
    (hc : ¬ count < 0) (hlk : lookupBlockIndex L strHash = some pbi)
    (h : name_sync L strHash count wait w = Except.ok evs) :
    scanLoop (scannedLedger L strHash count wait w) count
      (chainHeight (scannedLedger L strHash count wait w))
      ((chainHeight (scannedLedger L strHash count wait w) - pbi.nHeight).toNat)
      (pbi.nHeight + 1) 0 = Except.ok evs := by
  unfold name_sync at h
  rw [if_neg hc] at h
  split at h
  next heq =>
    rw [hlk] at heq
    cases heq
  next pbi2 heq =>
    rw [hlk] at heq
    injection heq with heq2
    subst heq2
    split at h
    next hbd => simp at h
    next blk hbd =>
      by_cases hw : (wait && decide (pbi.nHeight = chainHeight L)) = true
      · rw [if_pos hw] at h
        have hwt : waitTaken L strHash count wait = true := by
          unfold waitTaken
          rw [hlk]
          simp only [Bool.and_eq_true, decide_eq_true_eq] at hw ⊢
          exact ⟨by omega, hw⟩
        unfold scannedLedger
        rw [if_pos hwt]
        by_cases hr : w.rpcRunning = true
        · rw [if_neg (by simp [hr])] at h
          exact h
        · rw [if_pos (by simp [Bool.not_eq_true] at hr; simp [hr])] at h
          simp at h
      · rw [if_neg hw] at h
        have hwt : waitTaken L strHash count wait = false := by
          unfold waitTaken
          rw [hlk]
          cases hb : (wait && decide (pbi.nHeight = chainHeight L))
          · simp
          · exact absurd hb hw
        unfold scannedLedger
        rw [if_neg (by simp [hwt])]
        exact h

lemma name_sync_eq_scan (L : Ledger) (strHash : String) (count : Int) (w : WaitOutcome)
    (pbi : CBlockIndex) (b : CBlock)
    (hc : ¬ count < 0) (hlk : lookupBlockIndex L strHash = some pbi)
    (hbd : pbi.blockData = some b) :
    name_sync L strHash count false w =
      scanLoop L count (chainHeight L) ((chainHeight L - pbi.nHeight).toNat)
        (pbi.nHeight + 1) 0 := by
  unfold name_sync
  rw [if_neg hc]
  split
  next heq =>
    rw [hlk] at heq
    cases heq
  next pbi2 heq =>
    rw [hlk] at heq
    injection heq with heq2
    subst heq2
    split
    next heqbd =>
      rw [hbd] at heqbd
      cases heqbd
    next blk heqbd =>
      rw [if_neg (by simp)]

lemma list_split_of_get {α : Type} :
    ∀ (l : List α) (j : Nat) (x : α), l.get? j = some x →
      l = l.take j ++ x :: l.drop (j + 1) := by
  intro l
  induction l with
  | nil =>
    intro j x h
    simp at h
  | cons a as ihl =>
    intro j x h
    cases j with
    | zero =>
      simp only [List.get?] at h
      injection h with h2
      subst h2
      simp
    | succ j =>
      simp only [List.get?] at h
      have hrec := ihl j x h
      rw [List.take_succ_cons, List.drop_succ_cons, List.cons_append]
      exact congrArg (List.cons a) hrec

lemma blockEvents_decomp (b : CBlock) (j : Nat) (txj : CTransaction)
    (h : b.vtx.get? j = some txj) :
    blockEvents b = ((b.vtx.take j).map txEvents).flatten ++ txEvents txj ++
      ((b.vtx.drop (j + 1)).map txEvents).flatten := by
  conv_lhs => rw [blockEvents, list_split_of_get _ _ _ h]
  simp [List.map_append, List.flatten_append, List.append_assoc]

lemma txEvents_decomp (tx : CTransaction) (hn : tx.isNamecoin = true) (k : Nat)
    (op : CNameScript) (h : tx.vout.get? k = some op) :
    txEvents tx = (tx.vout.take k).filterMap outputEvent ++ (outputEvent op).toList ++
      ((tx.vout.drop (k + 1)).filterMap outputEvent) := by
  rw [txEvents, if_pos hn]
  conv_lhs => rw [list_split_of_get _ _ _ h]
  rw [List.filterMap_append]
  cases ho : outputEvent op with
  | none => simp [List.filterMap_cons, ho]
  | some ev => simp [List.filterMap_cons, ho]

lemma countNameOps_zero_of_atblock {cp : List JArr} (h : ∀ ev ∈ cp, isAtblockEv ev = true) :
    countNameOps cp = 0 := by
  induction cp with
  | nil => rfl
  | cons ev rest ihc =>
    have hev := h ev (by simp)
    have hrest := ihc (fun e he => h e (List.mem_cons_of_mem _ he))
    simp only [countNameOps, List.filter_cons, hev] at hrest ⊢
    simpa using hrest

lemma renderChunks_append (a b : List (CBlock × List JArr)) :
    renderChunks (a ++ b) = renderChunks a ++ renderChunks b := by
  simp [renderChunks]

lemma renderChunks_ends_atblock :
    ∀ (chunks : List (CBlock × List JArr)), chunks ≠ [] →
      (∀ q ∈ chunks, q.2 = [] ∨ ∃ hsh ht, q.2 = [[JVal.s "atblock", JVal.s hsh, JVal.i ht]]) →
      (∀ q, chunks.getLast? = some q → q.2 ≠ []) →
      ∃ l hsh ht, renderChunks chunks = l ++ [[JVal.s "atblock", JVal.s hsh, JVal.i ht]] := by
  intro chunks
  induction chunks with
  | nil => intro hne _ _; exact absurd rfl hne
  | cons q rest ihc =>
    intro _ hprops hlast
    cases rest with
    | nil =>
      have hq2 := hlast q (by simp [List.getLast?_singleton])
      rcases hprops q (by simp) with h0 | ⟨hsh, ht, hcpv⟩
      · exact absurd h0 hq2
      · refine ⟨blockEvents q.1, hsh, ht, ?_⟩
        simp [renderChunks, hcpv]
    | cons q2 rest2 =>
      obtain ⟨l, hsh, ht, hl⟩ := ihc (by simp)
        (fun p hp => hprops p (List.mem_cons_of_mem _ hp))
        (fun p hp => hlast p (by rw [List.getLast?_cons_cons]; exact hp))
      refine ⟨blockEvents q.1 ++ q.2 ++ l, hsh, ht, ?_⟩
      have hrc : renderChunks (q :: q2 :: rest2) =
          (blockEvents q.1 ++ q.2) ++ renderChunks (q2 :: rest2) := by
        simp [renderChunks]
      rw [hrc, hl]
      simp [List.append_assoc]

/-- C1: for a ledger whose canonical chain is H0 (the start block) followed
by H1 and H2 (the tip), where H1's only transaction carries a firstupdate
operation on name "d/example" with value "{}" and H2 contains no name
operations, Sync(H0, 10, false) returns exactly the three-event batch
consisting of the firstupdate event, the checkpoint of H1 (hash of H1,
height 1), and the checkpoint of H2 (hash of H2, height 2), in that
order. -/
theorem name_sync_example_batch
    (L : Ledger) (w : WaitOutcome) (h0 : String)
    (e0 e1 e2 : CBlockIndex) (b0 b1 b2 : CBlock) (tx : CTransaction) (op : CNameScript)
    (hchain : L.chainActive = [e0, e1, e2])
    (hlook : lookupBlockIndex L h0 = some e0)
    (hh0 : e0.nHeight = 0)
    (hd0 : e0.blockData = some b0)
    (hb1 : e1.blockData = some b1)
    (hb2 : e2.blockData = some b2)
    (htx : b1.vtx = [tx])
    (htxn : tx.isNamecoin = true)
    (hvout : tx.vout = [op])
    (hop1 : op.isNameOp = true) (hop2 : op.isAnyUpdate = true)
    (hop3 : op.getNameOp = NameOpcode.opNameFirstupdate)
    (hop4 : op.getOpName = "d/example") (hop5 : op.getOpValue = "\x7b\x7d")
    (hb2e : blockEvents b2 = []) :
    name_sync L h0 10 false w = Except.ok
      [[JVal.s "firstupdate", JVal.s "d/example", JVal.s "\x7b\x7d"],
       [JVal.s "atblock", JVal.s e1.blockHash, JVal.i 1],
       [JVal.s "atblock", JVal.s e2.blockHash, JVal.i 2]] := by
  have hc2 : chainHeight L = 2 := by simp [chainHeight, hchain]
  have hca1 : chainAt L 1 = some e1 := by
    simp [chainAt, hc2, hchain, List.get?]
  have hca2 : chainAt L 2 = some e2 := by
    simp [chainAt, hc2, hchain, List.get?]
  have hbev1 : blockEvents b1 = [[JVal.s "firstupdate", JVal.s "d/example", JVal.s "\x7b\x7d"]] := by
    simp [blockEvents, htx, txEvents, htxn, hvout, List.filterMap_cons, outputEvent,
      hop1, hop2, hop3, hop4, hop5]
  have hpb1 : processBlock L 1 = Except.ok (e1, blockEvents b1) := by
    simp [processBlock, hca1, hb1]
  have hpb2 : processBlock L 2 = Except.ok (e2, blockEvents b2) := by
    simp [processBlock, hca2, hb2]
  have hs2 : scanLoop L 10 2 1 2 1 = Except.ok [[JVal.s "atblock", JVal.s e2.blockHash, JVal.i 2]] := by
    rw [show (1 : Nat) = Nat.succ 0 from rfl, scanLoop]
    rw [if_neg (by norm_num), if_neg (by norm_num), hpb2]
    simp [hb2e, scanLoop]
  have hs1 : scanLoop L 10 2 2 1 0 = Except.ok
      [[JVal.s "firstupdate", JVal.s "d/example", JVal.s "\x7b\x7d"],
       [JVal.s "atblock", JVal.s e1.blockHash, JVal.i 1],
       [JVal.s "atblock", JVal.s e2.blockHash, JVal.i 2]] := by
    rw [show (2 : Nat) = Nat.succ 1 from rfl, scanLoop]
    rw [if_neg (by norm_num), if_neg (by norm_num), hpb1]
    simp [hbev1, hs2]
  rw [name_sync_eq_scan L h0 10 w e0 b0 (by norm_num) hlook hd0, hh0, hc2]
  rw [show ((2 : Int) - 0).toNat = 2 from rfl, show (0 : Int) + 1 = 1 from rfl]
  exact hs1

/-- C2: for every call Sync(startHash, N, wait) with N ≥ 0 that returns a
batch, the budget is a soft cap checked per whole block: the batch splits
into a prefix carrying at most N name operations, followed by the whole
event list of a single scanned block (the one that may cross the
threshold) and trailing checkpoint events only, so the total name
operation count exceeds N by at most that final block's contribution and
no block is partially scanned. -/
theorem name_sync_budget_soft_cap
    (L : Ledger) (strHash : String) (count : Int) (wait : Bool) (w : WaitOutcome)
    (evs : List JArr) (hc : 0 ≤ count)
    (h : name_sync L strHash count wait w = Except.ok evs) :
    ∃ pre lastB cp, evs = pre ++ (lastB ++ cp) ∧
      (countNameOps pre : Int) ≤ count ∧
      (countNameOps evs : Int) ≤ count + (countNameOps lastB : Int) ∧
      (∀ ev ∈ cp, isAtblockEv ev = true) ∧
      (lastB = [] ∨ ∃ hgt idx b,
        chainAt (scannedLedger L strHash count wait w) hgt = some idx ∧
        idx.blockData = some b ∧ lastB = blockEvents b) := by
  cases hlk : lookupBlockIndex L strHash with
  | none =>
    rw [name_sync_unknown (by omega) hlk] at h
    simp at h
  | some pbi =>
    have hscan := name_sync_ok_scan (by omega) hlk h
    obtain ⟨pre, lastB, cp, hdec, hcnt, hcp, hlast⟩ :=
      scanLoop_budget _ count _ _ _ _ _ (by omega) hscan
    have hcp0 : countNameOps cp = 0 := countNameOps_zero_of_atblock hcp
    refine ⟨pre, lastB, cp, hdec, by omega, ?_, hcp, hlast⟩
    rw [hdec, countNameOps_append, countNameOps_append, hcp0]
    push_cast
    omega

/-- C3: for every call that scans a non-empty range of blocks and returns a
batch, the batch decomposes into per-block chunks in which a checkpoint is
appended after a processed block if and only if that block emitted at
least one name operation or it is the last block of the scan; in
particular the batch always ends with a checkpoint event even when the
last scanned block produced zero name operations. -/
theorem name_sync_checkpoint_rule
    (L : Ledger) (strHash : String) (count : Int) (wait : Bool) (w : WaitOutcome)
    (evs : List JArr) (pbi : CBlockIndex)
    (hc : 0 ≤ count)
    (hlk : lookupBlockIndex L strHash = some pbi)
    (hne : pbi.nHeight < chainHeight (scannedLedger L strHash count wait w))
    (h : name_sync L strHash count wait w = Except.ok evs) :
    ∃ chunks : List (CBlock × List JArr), chunks ≠ [] ∧ evs = renderChunks chunks ∧
      (∀ q ∈ chunks, ∃ hgt idx,
        chainAt (scannedLedger L strHash count wait w) hgt = some idx ∧
        idx.blockData = some q.1 ∧
        (q.2 = [] ∨ q.2 = [[JVal.s "atblock", JVal.s idx.blockHash, JVal.i hgt]])) ∧
      (∀ q ∈ chunks, blockEvents q.1 ≠ [] → q.2 ≠ []) ∧
      (∀ q ∈ chunks.dropLast, q.2 ≠ [] → blockEvents q.1 ≠ []) ∧
      (∀ q, chunks.getLast? = some q → q.2 ≠ []) ∧
      (∃ l hsh ht, evs = l ++ [[JVal.s "atblock", JVal.s hsh, JVal.i ht]]) := by
  have hscan := name_sync_ok_scan (by omega) hlk h
  obtain ⟨chunks, hrender, hprops, hemit, hdrop, hiff, hlastcp⟩ :=
    scanLoop_chunks _ count _ _ _ _ _ (by omega) (by omega) hscan
  have hchne : chunks ≠ [] := by
    intro h0
    have := hiff.mp h0
    omega
  refine ⟨chunks, hchne, hrender, hprops, hemit, hdrop, hlastcp, ?_⟩
  obtain ⟨l, hsh, ht, hl⟩ := renderChunks_ends_atblock chunks hchne
    (fun q hq => by
      obtain ⟨hgt, idx, _, _, hcp⟩ := hprops q hq
      rcases hcp with h0 | hcpv
      · exact Or.inl h0
      · exact Or.inr ⟨idx.blockHash, hgt, hcpv⟩)
    hlastcp
  exact ⟨l, hsh, ht, by rw [hrender, hl]⟩

/-- C4: for every batch returned by Sync, the heights carried by its
checkpoint (atblock) events are strictly increasing in emission order and
every checkpoint height (in particular the final one) is at most the tip
height of the ledger the scan sampled: the call-time tip, re-sampled once
at wait-exit when the waiting branch was taken. -/
theorem name_sync_checkpoints_monotone
    (L : Ledger) (strHash : String) (count : Int) (wait : Bool) (w : WaitOutcome)
    (evs : List JArr)
    (h : name_sync L strHash count wait w = Except.ok evs) :
    List.Pairwise (fun a b => a < b) (cpHeights evs) ∧
    ∀ x ∈ cpHeights evs, x ≤ chainHeight (scannedLedger L strHash count wait w) := by
  by_cases hc : count < 0
  · have hevs : evs = [] := by
      rw [name_sync_neg hc] at h
      simp only [Except.ok.injEq] at h
      exact h.symm
    subst hevs
    exact ⟨List.Pairwise.nil, by simp [cpHeights]⟩
  · cases hlk : lookupBlockIndex L strHash with
    | none =>
      rw [name_sync_unknown hc hlk] at h
      simp at h
    | some pbi =>
      have hscan := name_sync_ok_scan hc hlk h
      obtain ⟨hp, hb⟩ := scanLoop_cpHeights _ count _ _ _ _ _ hscan
      exact ⟨hp, fun x hx => (hb x hx).2⟩

/-- C5: for every block processed by Sync, the name-operation events it
contributes to the output stream form one contiguous chunk (blocks in
scan order, each chunk followed only by checkpoint events), and within a
chunk the events appear in exactly transaction order within the block and,
within each transaction, in output order: the events of transaction j are
preceded exactly by those of transactions before j, and the event of
output k of a transaction is preceded exactly by the events of the
qualifying outputs before k. -/
theorem name_sync_intra_block_order
    (L : Ledger) (strHash : String) (count : Int) (wait : Bool) (w : WaitOutcome)
    (evs : List JArr)
    (h : name_sync L strHash count wait w = Except.ok evs) :
    (∃ chunks : List (CBlock × List JArr),
      evs = renderChunks chunks ∧
      (∀ q ∈ chunks, ∃ hgt idx,
        chainAt (scannedLedger L strHash count wait w) hgt = some idx ∧
        idx.blockData = some q.1) ∧
      (∀ q ∈ chunks, ∀ ev ∈ q.2, isAtblockEv ev = true)) ∧
    (∀ (b : CBlock) (j : Nat) (txj : CTransaction), b.vtx.get? j = some txj →
      blockEvents b = ((b.vtx.take j).map txEvents).flatten ++ txEvents txj ++
        ((b.vtx.drop (j + 1)).map txEvents).flatten) ∧
    (∀ (tx : CTransaction), tx.isNamecoin = true → ∀ (k : Nat) (op : CNameScript),
      tx.vout.get? k = some op →
      txEvents tx = (tx.vout.take k).filterMap outputEvent ++ (outputEvent op).toList ++
        ((tx.vout.drop (k + 1)).filterMap outputEvent)) := by
  refine ⟨?_, fun b j txj hj => blockEvents_decomp b j txj hj,
    fun tx hn k op hk => txEvents_decomp tx hn k op hk⟩
  by_cases hc : count < 0
  · have hevs : evs = [] := by
      rw [name_sync_neg hc] at h
      simp only [Except.ok.injEq] at h
      exact h.symm
    subst hevs
    exact ⟨[], rfl, by simp, by simp⟩
  · cases hlk : lookupBlockIndex L strHash with
    | none =>
      rw [name_sync_unknown hc hlk] at h
      simp at h
    | some pbi =>
      have hscan := name_sync_ok_scan hc hlk h
      obtain ⟨chunks, hrender, hprops, _, _, _, _⟩ :=
        scanLoop_chunks _ count _ _ _ _ _ (by omega) (by omega) hscan
      refine ⟨chunks, hrender, fun q hq => ?_, fun q hq ev hev => ?_⟩
      · obtain ⟨hgt, idx, hcai, hbd, _⟩ := hprops q hq
        exact ⟨hgt, idx, hcai, hbd⟩
      · obtain ⟨hgt, idx, _, _, hcp⟩ := hprops q hq
        rcases hcp with h0 | hcpv
        · rw [h0] at hev
          simp at hev
        · rw [hcpv] at hev
          rw [List.mem_singleton] at hev
          subst hev
          rfl

/-- C6: for every call Sync(startHash, N, wait) with N ≥ 0 where startHash
does not resolve to a block known to the ledger, the call fails with the
UnknownBlock (invalid-parameter) fault and, the result being an error,
produces no partial output. -/
theorem name_sync_unknown_block
    (L : Ledger) (strHash : String) (count : Int) (wait : Bool) (w : WaitOutcome)
    (hc : 0 ≤ count) (hlk : lookupBlockIndex L strHash = none) :
    name_sync L strHash count wait w = Except.error SyncError.unknownBlock :=
  name_sync_unknown (by omega) hlk

/-- C7: for every call Sync(startHash, N, wait) with N < 0, the result is an
empty batch, not an error; the model is a pure function of the ledger
state, so no state is touched. -/
theorem name_sync_negative_count
    (L : Ledger) (strHash : String) (count : Int) (wait : Bool) (w : WaitOutcome)
    (hc : count < 0) :
    name_sync L strHash count wait w = Except.ok [] :=
  name_sync_neg hc

/-- C8: every event of a batch returned by Sync is either a checkpoint
(atblock) event or a name-operation event whose kind string is
"firstupdate" or "update" (chosen by the operation subtype of the
qualifying output); in particular no "expire" event is ever emitted by
block-scanning. -/
theorem name_sync_event_kinds
    (L : Ledger) (strHash : String) (count : Int) (wait : Bool) (w : WaitOutcome)
    (evs : List JArr)
    (h : name_sync L strHash count wait w = Except.ok evs) :
    ∀ ev ∈ evs, (∃ hsh ht, ev = [JVal.s "atblock", JVal.s hsh, JVal.i ht]) ∨
      (∃ k nm v, ev = [JVal.s k, JVal.s nm, JVal.s v] ∧
        (k = "firstupdate" ∨ k = "update")) := by
  by_cases hc : count < 0
  · have hevs : evs = [] := by
      rw [name_sync_neg hc] at h
      simp only [Except.ok.injEq] at h
      exact h.symm
    subst hevs
    simp
  · cases hlk : lookupBlockIndex L strHash with
    | none =>
      rw [name_sync_unknown hc hlk] at h
      simp at h
    | some pbi =>
      have hscan := name_sync_ok_scan hc hlk h
      exact scanLoop_shapes _ count _ _ _ _ _ hscan

/-- C9: replaying Sync(startHash, N, false) against an unchanged ledger
yields identical event batches: with wait disabled the result does not
depend on the wait-environment outcome, so two calls with the same ledger,
start hash and count agree. -/
theorem name_sync_replay_deterministic
    (L : Ledger) (strHash : String) (count : Int) (w1 w2 : WaitOutcome) :
    name_sync L strHash count false w1 = name_sync L strHash count false w2 := by
  unfold name_sync
  rfl

/-- C10: Sync returns the empty batch (no name operation and no checkpoint
event) whenever N is negative, even for a start hash unknown to the
ledger, because the negative-count check precedes the block lookup; and
whenever the scan covers zero blocks, that is when the start block's
height equals the tip height and wait is false. -/
theorem name_sync_empty_batch
    (L : Ledger) (strHash : String) (count : Int) (wait : Bool) (w : WaitOutcome) :
    (count < 0 → name_sync L strHash count wait w = Except.ok []) ∧
    (∀ pbi : CBlockIndex, 0 ≤ count → lookupBlockIndex L strHash = some pbi →
      pbi.blockData.isSome = true → pbi.nHeight = chainHeight L → wait = false →
      name_sync L strHash count wait w = Except.ok []) := by
  constructor
  · intro hc
    exact name_sync_neg hc
  · intro pbi hc hlk hbd hht hwf
    subst hwf
    obtain ⟨b, hb⟩ := Option.isSome_iff_exists.mp hbd
    rw [name_sync_eq_scan L strHash count w pbi b (by omega) hlk hb, hht]
    have hz : (chainHeight L - chainHeight L).toNat = 0 := by omega
    rw [hz]
    rfl

/-- Witness for C1 at the concrete sample ledger. -/
theorem name_sync_example_batch_witness :
    name_sync exLedger "h0" 10 false wDefault = Except.ok
      [[JVal.s "firstupdate", JVal.s "d/example", JVal.s "\x7b\x7d"],
       [JVal.s "atblock", JVal.s exIdx1.blockHash, JVal.i 1],
       [JVal.s "atblock", JVal.s exIdx2.blockHash, JVal.i 2]] :=
  name_sync_example_batch exLedger wDefault "h0" exIdx0 exIdx1 exIdx2 exBlock0 exBlock1 exBlock2
    exTx1 exOp1 rfl rfl rfl rfl rfl rfl rfl rfl rfl rfl rfl rfl rfl rfl rfl

/-- Witness for C2 at the concrete sample ledger. -/
theorem name_sync_budget_soft_cap_witness :
    ∃ pre lastB cp, exOutput = pre ++ (lastB ++ cp) ∧
      (countNameOps pre : Int) ≤ 10 ∧
      (countNameOps exOutput : Int) ≤ 10 + (countNameOps lastB : Int) ∧
      (∀ ev ∈ cp, isAtblockEv ev = true) ∧
      (lastB = [] ∨ ∃ hgt idx b,
        chainAt (scannedLedger exLedger "h0" 10 false wDefault) hgt = some idx ∧
        idx.blockData = some b ∧ lastB = blockEvents b) :=
  name_sync_budget_soft_cap exLedger "h0" 10 false wDefault exOutput (by norm_num) rfl

/-- Witness for C3 at the concrete sample ledger. -/
theorem name_sync_checkpoint_rule_witness :
    ∃ chunks : List (CBlock × List JArr), chunks ≠ [] ∧ exOutput = renderChunks chunks ∧
      (∀ q ∈ chunks, ∃ hgt idx,
        chainAt (scannedLedger exLedger "h0" 10 false wDefault) hgt = some idx ∧
        idx.blockData = some q.1 ∧
        (q.2 = [] ∨ q.2 = [[JVal.s "atblock", JVal.s idx.blockHash, JVal.i hgt]])) ∧
      (∀ q ∈ chunks, blockEvents q.1 ≠ [] → q.2 ≠ []) ∧
      (∀ q ∈ chunks.dropLast, q.2 ≠ [] → blockEvents q.1 ≠ []) ∧
      (∀ q, chunks.getLast? = some q → q.2 ≠ []) ∧
      (∃ l hsh ht, exOutput = l ++ [[JVal.s "atblock", JVal.s hsh, JVal.i ht]]) :=
  name_sync_checkpoint_rule exLedger "h0" 10 false wDefault exOutput exIdx0 (by norm_num) rfl
    (by decide) rfl

/-- Witness for C4 at the concrete sample ledger. -/
theorem name_sync_checkpoints_monotone_witness :
    List.Pairwise (fun a b => a < b) (cpHeights exOutput) ∧
    ∀ x ∈ cpHeights exOutput, x ≤ chainHeight (scannedLedger exLedger "h0" 10 false wDefault) :=
  name_sync_checkpoints_monotone exLedger "h0" 10 false wDefault exOutput rfl

/-- Witness for C5 at the concrete sample ledger. -/
theorem name_sync_intra_block_order_witness :
    (∃ chunks : List (CBlock × List JArr),
      exOutput = renderChunks chunks ∧
      (∀ q ∈ chunks, ∃ hgt idx,
        chainAt (scannedLedger exLedger "h0" 10 false wDefault) hgt = some idx ∧
        idx.blockData = some q.1) ∧
      (∀ q ∈ chunks, ∀ ev ∈ q.2, isAtblockEv ev = true)) ∧
    (∀ (b : CBlock) (j : Nat) (txj : CTransaction), b.vtx.get? j = some txj →
      blockEvents b = ((b.vtx.take j).map txEvents).flatten ++ txEvents txj ++
        ((b.vtx.drop (j + 1)).map txEvents).flatten) ∧
    (∀ (tx : CTransaction), tx.isNamecoin = true → ∀ (k : Nat) (op : CNameScript),
      tx.vout.get? k = some op →
      txEvents tx = (tx.vout.take k).filterMap outputEvent ++ (outputEvent op).toList ++
        ((tx.vout.drop (k + 1)).filterMap outputEvent)) :=
  name_sync_intra_block_order exLedger "h0" 10 false wDefault exOutput rfl

/-- Witness for C6: an unknown start hash with nonnegative count. -/
theorem name_sync_unknown_block_witness :
    (0 : Int) ≤ 0 ∧ lookupBlockIndex exLedger "nosuch" = none ∧
    name_sync exLedger "nosuch" 0 false wDefault = Except.error SyncError.unknownBlock :=
  ⟨by norm_num, rfl, name_sync_unknown_block exLedger "nosuch" 0 false wDefault (by norm_num) rfl⟩

/-- Witness for C7: a negative count yields the empty batch. -/
theorem name_sync_negative_count_witness :
    (-1 : Int) < 0 ∧ name_sync exLedger "h0" (-1) false wDefault = Except.ok [] :=
  ⟨by norm_num, name_sync_negative_count exLedger "h0" (-1) false wDefault (by norm_num)⟩

/-- Witness for C8 at the concrete sample ledger, instantiated at the
firstupdate event of the sample batch. -/
theorem name_sync_event_kinds_witness :
    (∃ hsh ht, ([JVal.s "firstupdate", JVal.s "d/example", JVal.s "\x7b\x7d"] : JArr) =
      [JVal.s "atblock", JVal.s hsh, JVal.i ht]) ∨
    (∃ k nm v, ([JVal.s "firstupdate", JVal.s "d/example", JVal.s "\x7b\x7d"] : JArr) =
      [JVal.s k, JVal.s nm, JVal.s v] ∧ (k = "firstupdate" ∨ k = "update")) :=
  name_sync_event_kinds exLedger "h0" 10 false wDefault exOutput rfl
    [JVal.s "firstupdate", JVal.s "d/example", JVal.s "\x7b\x7d"] (by decide)

/-- Witness for C10: negative count with an unknown hash, and a start block
already at the tip with wait disabled; both produce the empty batch. -/
theorem name_sync_empty_batch_witness :
    name_sync exLedger "nosuch" (-2) false wDefault = Except.ok [] ∧
    name_sync exLedger "h2" 5 false wDefault = Except.ok [] :=
  ⟨(name_sync_empty_batch exLedger "nosuch" (-2) false wDefault).1 (by norm_num),
   (name_sync_empty_batch exLedger "h2" 5 false wDefault).2 exIdx2 (by norm_num) rfl rfl rfl rfl⟩

